import Mathlib

/-!
# URL discovery service: a shallow embedding of the core operations

This file embeds the pure content of the repository's core operations in
Lean 4 and settles the frozen claims about them.

* `normalize_url`, `is_same_origin` (app/utils.py) over a model of CPython's
  `urllib.parse` (`urlsplitD`, `urlunsplit`, `urljoin`, `parse_qs`);
* the breadth-first traversal of `URLDiscoveryCrawler.crawl` and its
  per-visit recording loop (app/crawler.py);
* the control flow of `DiscoveryTaskScheduler.execute_task` and of the
  `/crawl-urls-audit` route, with collaborator calls given by an oracle
  environment (app/scheduler.py, app/url_routes.py);
* the launch/finish interleavings of the running-task registry
  (app/scheduler.py, app/task_routes.py) as a labelled transition system;
* `Database.save_url` and `Database.get_needed_discovery_urls`
  (app/database.py) over a list-of-rows store, with SQL `ILIKE` modelled by
  an executable `LIKE` matcher.

Python strings are lists of characters; fallible code returns `Option` or
`Except`; database patches apply to the modelled store directly.
-/

namespace UrlDisc

/-- Python strings, modelled as lists of characters. -/
abbrev Str := List Char

/-- Python `s.startswith(p)`. -/
def pyStartsWith : Str → Str → Bool
  | _, [] => true
  | [], _ :: _ => false
  | c :: s, p :: ps => c == p && pyStartsWith s ps

/-- Python `s.lower()` (also the case folding of SQL `ILIKE`). -/
def lowerStr (s : Str) : Str := s.map Char.toLower

/-- Split at the first occurrence of `sep`: `none` when `sep` does not occur,
otherwise `(before, after)` with `sep` removed.  Models `str.split(sep, 1)`
and the `str.find` idioms of `urllib.parse`. -/
def splitFirst (sep : Char) : Str → Option (Str × Str)
  | [] => none
  | c :: rest =>
    if c = sep then some ([], rest)
    else (splitFirst sep rest).map (fun pr => (c :: pr.1, pr.2))

/-- Python `str.split(sep)`: the list of fields (never empty). -/
def splitAll (sep : Char) : Str → List Str
  | [] => [[]]
  | c :: rest =>
    if c = sep then [] :: splitAll sep rest
    else
      match splitAll sep rest with
      | [] => [[c]]
      | s :: ss => (c :: s) :: ss

/-- A character allowed in a URL scheme after the first one. -/
def isSchemeChar (c : Char) : Bool := c.isAlpha || c.isDigit || c = '+' || c = '-' || c = '.'

/-- The part before the first ':' names a scheme: nonempty, letter first,
then scheme characters (CPython `urlsplit`'s scheme test). -/
def isSchemeName : Str → Bool
  | [] => false
  | c :: rest => c.isAlpha && rest.all isSchemeChar

/-- The characters that terminate a netloc in `urlsplit`. -/
def netlocDelim (c : Char) : Bool := c = '/' || c = '?' || c = '#'

/-- CPython `_splitnetloc`: the netloc runs to the next '/', '?' or '#'. -/
def splitNetloc : Str → Str × Str
  | [] => ([], [])
  | c :: rest =>
    if netlocDelim c then ([], c :: rest)
    else
      let pr := splitNetloc rest
      (c :: pr.1, pr.2)

/-- The five components of `urlsplit`.  `urlparse`'s extra params component
is kept inside `path` here: `urlparse` splits `;params` off the path and
`urlunparse` re-joins them unchanged, so the merged representation is
faithful for every operation modelled in this file. -/
structure UrlParts where
  scheme : Str
  netloc : Str
  path : Str
  query : Str
  fragment : Str
deriving DecidableEq

/-- Split at the first occurrence of `sep` with the whole string as `before`
when `sep` does not occur: the `s.split(sep, 1)` idiom of `urlsplit`. -/
def splitTail (sep : Char) (s : Str) : Str × Str :=
  match splitFirst sep s with
  | some pr => pr
  | none => (s, [])

/-- CPython `urllib.parse.urlsplit url scheme0` (with `allow_fragments`):
scheme before the first ':' when it is a valid scheme name (lower-cased,
else the default `scheme0`), netloc after a leading '//', fragment after the
first '#', query after the first '?'.  An absent part and an empty part are
both the empty string, exactly as `urlunsplit` treats them.  The WHATWG
control-character stripping of newer CPython is not modelled (no input here
contains such characters). -/
def splitSchemePart (url scheme0 : Str) : Str × Str :=
  match splitFirst ':' url with
  | some pr =>
    if isSchemeName pr.1 then (lowerStr pr.1, pr.2) else (scheme0, url)
  | none => (scheme0, url)

/-- The netloc step of `urlsplit`: after a leading `//`, up to the next
delimiter. -/
def splitNetPart (s : Str) : Str × Str :=
  if pyStartsWith s ('/' :: '/' :: []) = true then splitNetloc (s.drop 2)
  else ([], s)

def urlsplitD (url : Str) (scheme0 : Str) : UrlParts :=
  let sr : Str × Str := splitSchemePart url scheme0
  let nr : Str × Str := splitNetPart sr.2
  let pf : Str × Str := splitTail '#' nr.2
  let pq : Str × Str := splitTail '?' pf.1
  ⟨sr.1, nr.1, pq.1, pq.2, pf.2⟩

/-- `if url and url[:1] != '/': url = '/' + url` in `urlunsplit`. -/
def addSlash : Str → Str
  | [] => []
  | c :: rest => if c = '/' then c :: rest else '/' :: c :: rest

/-- CPython `urllib.parse.urlunsplit`. -/
def urlunsplit (p : UrlParts) : Str :=
  let url := p.path
  let url :=
    if p.netloc ≠ [] ∨ pyStartsWith url ('/' :: '/' :: []) = true then
      '/' :: '/' :: (p.netloc ++ addSlash url)
    else url
  let url := if p.scheme ≠ [] then p.scheme ++ ':' :: url else url
  let url := if p.query ≠ [] then url ++ '?' :: p.query else url
  if p.fragment ≠ [] then url ++ '#' :: p.fragment else url

/-- `urllib.parse.uses_relative`. -/
def usesRelative : List Str :=
  (["", "ftp", "http", "gopher", "nntp", "imap", "wais", "file", "https",
    "shttp", "mms", "prospero", "rtsp", "rtspu", "sftp", "svn", "svn+ssh",
    "ws", "wss"]).map String.toList

/-- `urllib.parse.uses_netloc`. -/
def usesNetloc : List Str :=
  (["", "ftp", "http", "gopher", "nntp", "telnet", "imap", "wais", "file",
    "mms", "https", "shttp", "snews", "prospero", "rtsp", "rtspu", "rsync",
    "svn", "svn+ssh", "sftp", "nfs", "git", "git+ssh", "ws", "wss"]).map String.toList

/-- `base_parts = bpath.split('/'); if base_parts[-1] != '': del base_parts[-1]`. -/
def initSegs (parts : List Str) : List Str :=
  if parts.getLast? = some [] then parts else parts.dropLast

/-- Keep the last segment, drop empty ones before it. -/
def filterMiddleAux : List Str → List Str
  | [] => []
  | [a] => [a]
  | a :: rest => if a = [] then filterMiddleAux rest else a :: filterMiddleAux rest

/-- `segments[1:-1] = filter(None, segments[1:-1])`: the first and last
segments are kept, empty segments strictly inside are dropped. -/
def filterMiddle : List Str → List Str
  | [] => []
  | a :: rest => a :: filterMiddleAux rest

/-- The `'..'` / `'.'` resolution loop of `urljoin` (pop on `'..'`, with
`IndexError` passed over; skip `'.'`). -/
def resolveSegs : List Str → List Str → List Str
  | [], acc => acc
  | seg :: rest, acc =>
    if seg = ('.' :: '.' :: []) then resolveSegs rest acc.dropLast
    else if seg = ('.' :: []) then resolveSegs rest acc
    else resolveSegs rest (acc ++ [seg])

/-- `'/'.join(segments)`. -/
def joinSegs (segs : List Str) : Str := List.intercalate ('/' :: []) segs

/-- CPython `urllib.parse.urljoin`. -/
def urljoin (base url : Str) : Str :=
  if base = [] then url
  else if url = [] then base
  else
    let b := urlsplitD base []
    let u := urlsplitD url b.scheme
    if ¬ (u.scheme = b.scheme ∧ u.scheme ∈ usesRelative) then url
    else if u.scheme ∈ usesNetloc ∧ u.netloc ≠ [] then urlunsplit u
    else
      let netloc := if u.scheme ∈ usesNetloc then b.netloc else u.netloc
      if u.path = [] then
        let query := if u.query = [] then b.query else u.query
        urlunsplit ⟨u.scheme, netloc, b.path, query, u.fragment⟩
      else
        let segs :=
          if pyStartsWith u.path ('/' :: []) = true then splitAll '/' u.path
          else filterMiddle (initSegs (splitAll '/' b.path) ++ splitAll '/' u.path)
        let resolved := resolveSegs segs []
        let resolved :=
          if segs.getLast? = some ('.' :: []) ∨ segs.getLast? = some ('.' :: '.' :: [])
          then resolved ++ [[]]
          else resolved
        let path := if joinSegs resolved = [] then ('/' :: []) else joinSegs resolved
        urlunsplit ⟨u.scheme, netloc, path, u.query, u.fragment⟩

/-- The numeric value of a hex digit. -/
def hexDigit (c : Char) : Option Nat :=
  if '0' ≤ c ∧ c ≤ '9' then some (c.toNat - '0'.toNat)
  else if 'a' ≤ c ∧ c ≤ 'f' then some (c.toNat - 'a'.toNat + 10)
  else if 'A' ≤ c ∧ c ≤ 'F' then some (c.toNat - 'A'.toNat + 10)
  else none

/-- `urllib.parse.unquote` restricted to ASCII escapes: `%xy` with `xy` hex
and value below 128 becomes that character; an invalid escape keeps its
characters literally.  (CPython runs escape bytes through UTF-8 decoding;
for ASCII escapes — every input in this file — the two agree.) -/
def percentDecode : Str → Str
  | '%' :: a :: b :: rest =>
    match hexDigit a, hexDigit b with
    | some x, some y =>
      if 16 * x + y < 128 then Char.ofNat (16 * x + y) :: percentDecode rest
      else '%' :: a :: b :: percentDecode rest
    | _, _ => '%' :: percentDecode (a :: b :: rest)
  | c :: rest => c :: percentDecode rest
  | [] => []

/-- `urllib.parse.unquote_plus`: '+' becomes a space, then percent-decoding. -/
def unquotePlus (s : Str) : Str :=
  percentDecode (s.map (fun c => if c = '+' then ' ' else c))

/-- `urllib.parse.parse_qsl` with the defaults used by `parse_qs`
(`keep_blank_values=False`, separator `'&'`): an empty field, a field with no
'=' and a field whose raw value is empty are dropped; names and values are
'+'- and percent-decoded. -/
def parse_qsl (qs : Str) : List (Str × Str) :=
  (splitAll '&' qs).filterMap fun field =>
    if field = [] then none
    else
      match splitFirst '=' field with
      | none => none
      | some (k, v) => if v = [] then none else some (unquotePlus k, unquotePlus v)

/-- Insert one name/value pair into the ordered grouping of `parse_qs`. -/
def qsInsert (acc : List (Str × List Str)) (k : Str) (v : Str) : List (Str × List Str) :=
  match acc with
  | [] => [(k, [v])]
  | (k0, vs) :: rest => if k0 = k then (k0, vs ++ [v]) :: rest else (k0, vs) :: qsInsert rest k v

/-- `urllib.parse.parse_qs`: values grouped per name, names in first-occurrence
order (Python dict insertion order). -/
def parse_qs (qs : Str) : List (Str × List Str) :=
  (parse_qsl qs).foldl (fun acc kv => qsInsert acc kv.1 kv.2) []

/-- The query rebuild of `normalize_url`:
`'&'.join(f"{k}={v[0]}" for k, v in filtered_params.items())`. -/
def buildQuery (l : List (Str × List Str)) : Str :=
  List.intercalate ('&' :: []) (l.map (fun kv => kv.1 ++ '=' :: kv.2.headD []))

/-- The scheme prefixes `normalize_url` rejects outright. -/
def disallowedSchemes : List Str :=
  (["javascript:", "mailto:", "tel:", "data:"]).map String.toList

/-- app/utils.py `normalize_url`.  The function's `try/except` returning
`None` on any exception is modelled by totality. -/
def normalize_url (base_url href : Str) : Option Str :=
  if disallowedSchemes.any (fun p => pyStartsWith href p) then none
  else if href = [] ∨ href = ('#' :: []) then none
  else
    let parsed := urlsplitD (urljoin base_url href) []
    if parsed.scheme = [] ∨ parsed.netloc = [] then none
    else if ¬ (parsed.scheme = "http".toList ∨ parsed.scheme = "https".toList) then none
    else
      let parsed := { parsed with fragment := [] }
      let parsed :=
        if parsed.query ≠ [] then
          let filtered := (parse_qs parsed.query).filter
            (fun kv => !(pyStartsWith kv.1 ("utm_".toList)))
          if filtered ≠ [] then { parsed with query := buildQuery filtered }
          else { parsed with query := [] }
        else parsed
      some (urlunsplit parsed)

/-- app/utils.py `is_same_origin`: equality of scheme and of netloc on the
two parses (`urlparse` lower-cases the scheme, never the netloc). -/
def is_same_origin (url1 url2 : Str) : Bool :=
  let p1 := urlsplitD url1 []
  let p2 := urlsplitD url2 []
  p1.scheme == p2.scheme && p1.netloc == p2.netloc

/-! ## The crawler (app/crawler.py)

`URLDiscoveryCrawler.crawl` runs a breadth-first loop over a queue of
`(url, depth, discovered_from)` entries.  `_discover_urls_from_page` collects
the per-channel candidates of one page visit into a Python **set** of
`(url, discovery_type)` pairs and hands back `list(discovered)` — an
enumeration of that set in unspecified order.  The page oracle `pages` below
stands for that call: `pages url = none` models the visit raising (the
`except` branch logs and continues), `some l` models the enumeration `l`.

The `while` loop is embedded with `budget = max_pages - len(visited)`:
each iteration of the Python loop pops one entry and either skips it
(already visited or too deep — `visited` unchanged) or visits it (grows
`visited` by one).  Skips never change the loop condition
`len(visited) < max_pages`, so grouping each visit with the skips before it
(`popNext`) and recursing on `budget` is the same computation. -/

/-- app/models.py `DiscoveredURL` (the fields the crawler sets). -/
structure DiscoveredURL where
  url : String
  depth : Nat
  discovered_from : Option String
  discovery_type : String
deriving DecidableEq

/-- A queue entry `(url, depth, discovered_from)`. -/
abbrev QEntry := String × Nat × Option String

/-- The result dict `discovered_urls`, keyed by URL. -/
abbrev UrlMap := List (String × DiscoveredURL)

/-- `URLDiscoveryCrawler._add_discovered_url`: first writer wins. -/
def _add_discovered_url (m : UrlMap) (url : String) (depth : Nat)
    (dfrom : Option String) (dtype : String) : UrlMap :=
  if (m.lookup url).isSome then m else m ++ [(url, ⟨url, depth, dfrom, dtype⟩)]

/-- The URLs currently in the queue (`[u for u, _, _ in self.queue]`). -/
def queueUrls (q : List QEntry) : List String := q.map (fun e => e.1)

/-- The `for new_url, discovery_type in new_urls` loop of `crawl`: a pair is
enqueued and recorded only when its URL is neither visited nor already
queued (the queue check sees the queue as already grown by earlier
iterations of this very loop). -/
def processNew (url : String) (depth : Nat) (visited : List String) :
    List (String × String) → List QEntry → UrlMap → List QEntry × UrlMap
  | [], queue, m => (queue, m)
  | (nu, dt) :: rest, queue, m =>
    if nu ∉ visited ∧ nu ∉ queueUrls queue then
      processNew url depth visited rest (queue ++ [(nu, depth + 1, some url)])
        (_add_discovered_url m nu (depth + 1) (some url) dt)
    else processNew url depth visited rest queue m

/-- Pop entries until the first one that is neither visited nor beyond
`max_depth`; `none` when the queue runs out while skipping. -/
def popNext (maxDepth : Nat) (visited : List String) :
    List QEntry → Option (QEntry × List QEntry)
  | [] => none
  | e :: rest =>
    if e.1 ∈ visited ∨ e.2.1 > maxDepth then popNext maxDepth visited rest
    else some (e, rest)

/-- The `while self.queue and len(self.visited) < self.max_pages` loop;
`budget` is `max_pages - len(visited)`. -/
def crawlLoop (pages : String → Option (List (String × String))) (maxDepth : Nat) :
    Nat → List QEntry → List String → UrlMap → UrlMap × List String
  | 0, _, visited, m => (m, visited)
  | budget + 1, queue, visited, m =>
    match popNext maxDepth visited queue with
    | none => (m, visited)
    | some ((url, depth, dfrom), rest) =>
      let visited' := url :: visited
      let m1 := _add_discovered_url m url depth dfrom "dom"
      match pages url with
      | none => crawlLoop pages maxDepth budget rest visited' m1
      | some news =>
        let qm := processNew url depth visited' news rest m1
        crawlLoop pages maxDepth budget qm.1 visited' qm.2

/-- `URLDiscoveryCrawler.crawl`: queue seeded with `(start_url, 0, None)`;
returns the result map and the visited set. -/
def crawl (pages : String → Option (List (String × String)))
    (start_url : String) (maxDepth maxPages : Nat) : UrlMap × List String :=
  crawlLoop pages maxDepth maxPages [(start_url, 0, none)] [] []

/-! ## The scheduler's execution unit (app/scheduler.py `execute_task`)

The database patches (`_update_execution_time`, `_update_task_result`,
`_update_next_execution`) are modelled as updates of the task row carried in
the state; the collaborator steps that the code awaits — `crawler.crawl`,
`save_discovery_result`, `get_needed_discovery_urls`, `call_cds_url_audit` —
are oracle outcomes in `ExecEnv` (`Except.error` = the call raised).
Python call arity is checked explicitly: `URLDiscoveryCrawler.__init__`
requires the three positional parameters of `crawlerParams`, while both call
sites (`scheduler.py` line 107, `url_routes.py` line 60) pass exactly one
positional argument, `base_url`. -/

/-- The opaque value `crawler.crawl()` would return. -/
abbrev CrawlData := List (String × String)

/-- The mutable fields of a `url_discovery_tasks` row that `execute_task`
touches. -/
structure TaskRow where
  success_counts : Nat
  fail_counts : Nat
  next_execution_time : Option Nat
  last_execution_time : Option Nat
deriving DecidableEq

/-- Outcomes of the awaited collaborator calls of one execution. -/
structure ExecEnv where
  touchResult : Except String Unit
  crawlResult : Except String CrawlData
  saveResult : Except String Unit
  queryResult : Except String (List String)
  auditResult : Except String (Nat × Nat)

/-- What one run of `execute_task` did. -/
structure ExecResult where
  row : TaskRow
  crawlAttempted : Bool
  saveInvokedWith : Option CrawlData
  auditCalled : Bool
  failed : Bool
deriving DecidableEq

/-- The required positional parameters of `URLDiscoveryCrawler.__init__`
(app/crawler.py line 31). -/
def crawlerParams : List String := ["start_url", "max_depth", "max_pages"]

/-- Python positional-call check: too few or too many arguments raise
`TypeError` before the body runs. -/
def pyCallCheck (required : List String) (given : Nat) : Except String Unit :=
  if given < required.length then Except.error "TypeError: missing positional arguments"
  else if required.length < given then Except.error "TypeError: too many positional arguments"
  else Except.ok ()

/-- `URLDiscoveryCrawler(base_url)`: one positional argument at both call
sites (app/scheduler.py line 107, app/url_routes.py line 60). -/
def crawlerArgsGiven : Nat := 1

/-- app/scheduler.py `execute_task`, steps 1-5 with its `try/except`:
on failure the `except` branch still sets
`next_execution_time = now + execution_interval` and skips the counter
update; the `finally` registry cleanup is part of the transition system
below, not of this function.  `argsGiven` is the number of positional
arguments the call site hands to `URLDiscoveryCrawler`; the scheduler's
own call site passes `crawlerArgsGiven`. -/
def execute_task (argsGiven : Nat) (env : ExecEnv) (now interval : Nat)
    (row : TaskRow) : ExecResult :=
  match env.touchResult with
  | Except.error _ =>
    ⟨{ row with next_execution_time := some (now + interval) }, false, none, false, true⟩
  | Except.ok _ =>
    let row1 := { row with last_execution_time := some now }
    let failRow := { row1 with next_execution_time := some (now + interval) }
    match pyCallCheck crawlerParams argsGiven with
    | Except.error _ => ⟨failRow, false, none, false, true⟩
    | Except.ok _ =>
      match env.crawlResult with
      | Except.error _ => ⟨failRow, true, none, false, true⟩
      | Except.ok data =>
        match env.saveResult with
        | Except.error _ => ⟨failRow, true, some data, false, true⟩
        | Except.ok _ =>
          match env.queryResult with
          | Except.error _ => ⟨failRow, true, some data, false, true⟩
          | Except.ok cand =>
            match (if cand.isEmpty then Except.ok (0, 0) else env.auditResult) with
            | Except.error _ => ⟨failRow, true, some data, !cand.isEmpty, true⟩
            | Except.ok sf =>
              ⟨{ row1 with
                  success_counts := row1.success_counts + sf.1,
                  fail_counts := row1.fail_counts + sf.2,
                  next_execution_time := some (now + interval) },
                true, some data, !cand.isEmpty, false⟩

/-- What a `/crawl-urls-audit` request did. -/
structure RouteResult where
  status : Nat
  saveInvokedWith : Option CrawlData
  auditCalled : Bool
deriving DecidableEq

/-- app/url_routes.py `crawl_urls_audit`: the same pipeline behind HTTP; any
exception becomes a 500 response.  `argsGiven` as in `execute_task`; the
route's call site passes `crawlerArgsGiven`. -/
def crawl_urls_audit (argsGiven : Nat) (env : ExecEnv) : RouteResult :=
  match pyCallCheck crawlerParams argsGiven with
  | Except.error _ => ⟨500, none, false⟩
  | Except.ok _ =>
    match env.crawlResult with
    | Except.error _ => ⟨500, none, false⟩
    | Except.ok data =>
      match env.saveResult with
      | Except.error _ => ⟨500, some data, false⟩
      | Except.ok _ =>
        match env.queryResult with
        | Except.error _ => ⟨500, some data, false⟩
        | Except.ok _ =>
          match env.auditResult with
          | Except.error _ => ⟨500, some data, true⟩
          | Except.ok _ => ⟨200, some data, true⟩

/-! ## The running-task registry (app/scheduler.py, app/task_routes.py)

A labelled transition system over the scheduler's in-memory state.
`pollLaunch` is one poll-loop iteration for a due task: the
check-then-insert of `check_and_execute_tasks` happens with no suspension
point between check and insert, so it is a single atomic action.
`createLaunch` is the `background_tasks.add_task(scheduler.execute_task, ...)`
of `create_discovery_task` (app/task_routes.py lines 83-97): it launches an
execution **without** consulting or updating the registry.  `finish` is the
`finally` block of `execute_task`: one running execution ends and deletes
its task id from the registry when present (`List.erase` on a registry the
poll loop keeps duplicate-free). -/

/-- An atomic event of the scheduler's concurrency model. -/
inductive SchedAction where
  | pollLaunch (t : Nat)
  | createLaunch (t : Nat)
  | finish (t : Nat)
deriving DecidableEq

/-- Registry (`running_tasks` keys) and the multiset of in-flight
executions by task id. -/
structure SchedState where
  registry : List Nat
  inflight : List Nat
deriving DecidableEq

/-- One transition; `none` when the action is not enabled. -/
def schedStep (s : SchedState) : SchedAction → Option SchedState
  | SchedAction.pollLaunch t =>
    if t ∈ s.registry then none
    else some ⟨t :: s.registry, t :: s.inflight⟩
  | SchedAction.createLaunch t => some ⟨s.registry, t :: s.inflight⟩
  | SchedAction.finish t =>
    if t ∈ s.inflight then some ⟨s.registry.erase t, s.inflight.erase t⟩ else none

/-- Run a sequence of actions from a state. -/
def runTrace (s : SchedState) : List SchedAction → Option SchedState
  | [] => some s
  | a :: rest =>
    match schedStep s a with
    | none => none
    | some s' => runTrace s' rest

/-- The scheduler's initial state. -/
def initSched : SchedState := ⟨[], []⟩

/-- Actions of the poll loop and of execution cleanup only (no
`create_discovery_task` background launch). -/
def pollOnly : SchedAction → Bool
  | SchedAction.createLaunch _ => false
  | _ => true

/-! ## The URL store (app/database.py)

`web_urls` as a list of rows.  `save_url` runs the conditional `INSERT ...
WHERE NOT EXISTS` and then the unconditional `UPDATE ... SET last_seen_at =
NOW()` for the `(origin, discovery_url)` key; both timestamp defaults are
`NOW()`, passed in as `now`.  `get_needed_discovery_urls` keeps this
origin's rows not matched by any exclusion pattern
`discovery_url ILIKE '%' || ext  OR  discovery_url ILIKE '%' || ext || '?%'`;
`ILIKE` is the standard `LIKE` matcher after case folding both sides
(`ORDER BY first_seen_at` is modelled by keeping store order). -/

/-- A row of `web_urls`. -/
structure UrlRow where
  origin : Str
  discovery_url : Str
  discovery_type : Str
  source_type : Str
  tags : Str
  first_seen_at : Nat
  last_seen_at : Nat
deriving DecidableEq

/-- The uniqueness key `(origin, discovery_url)`. -/
def keyMatches (r : UrlRow) (origin url : Str) : Bool :=
  r.origin == origin && r.discovery_url == url

/-- app/database.py `save_url`: insert only when no row has the key, then
set `last_seen_at = now` on every row with the key. -/
def save_url (store : List UrlRow) (origin url dtype stype tags : Str)
    (now : Nat) : List UrlRow :=
  let store1 :=
    if store.any (fun r => keyMatches r origin url) then store
    else store ++ [⟨origin, url, dtype, stype, tags, now, now⟩]
  store1.map (fun r => if keyMatches r origin url then { r with last_seen_at := now } else r)

/-- How many rows carry the key. -/
def countKey (store : List UrlRow) (origin url : Str) : Nat :=
  (store.filter (fun r => keyMatches r origin url)).length

/-- `last_seen_at` of the first row with the key. -/
def lastSeenOf (store : List UrlRow) (origin url : Str) : Option Nat :=
  (store.find? (fun r => keyMatches r origin url)).map (fun r => r.last_seen_at)

/-- SQL `LIKE`: '%' matches any sequence, '_' any one character, every other
pattern character itself (no escape character occurs in this code). -/
def likeMatch : Str → Str → Bool
  | [], s => s.isEmpty
  | c :: ps, s =>
    if c = '%' then s.tails.any (fun t => likeMatch ps t)
    else if c = '_' then
      match s with
      | [] => false
      | _ :: s' => likeMatch ps s'
    else
      match s with
      | [] => false
      | d :: s' => c == d && likeMatch ps s'

/-- SQL `ILIKE`: `LIKE` after case folding string and pattern. -/
def pgILike (s pattern : Str) : Bool := likeMatch (lowerStr pattern) (lowerStr s)

/-- One exclusion suffix matches:
`discovery_url ILIKE '%' || ext OR discovery_url ILIKE '%' || ext || '?%'`. -/
def excludedBy (url ext : Str) : Bool :=
  pgILike url ('%' :: ext) || pgILike url ('%' :: (ext ++ ('?' :: '%' :: [])))

/-- app/database.py `get_needed_discovery_urls`: this origin's URLs not
matched by any exclusion suffix. -/
def get_needed_discovery_urls (store : List UrlRow) (origin : Str)
    (exclude_suffixes : List Str) : List Str :=
  (store.filter (fun r =>
    r.origin == origin && !(exclude_suffixes.any (fun ext => excludedBy r.discovery_url ext)))).map
    (fun r => r.discovery_url)

/-- Modelled from the spec: the audit-candidate query as the claim words it —
the stored URLs of the origin whose **path** does not end with any listed
suffix (a suffix immediately followed by a query string also matches; since
the parsed path carries no '?', that case is a path ending in the suffix). -/
def auditCandidatesClaim (store : List UrlRow) (origin : Str)
    (exclude_suffixes : List Str) : List Str :=
  (store.filter (fun r =>
    r.origin == origin &&
      !(exclude_suffixes.any (fun ext =>
        pyStartsWith (List.reverse (urlsplitD r.discovery_url []).path) (List.reverse ext))))).map
    (fun r => r.discovery_url)

/-- One call of the upsert contract: key fields and the call's `NOW()`. -/
structure UpsertCall where
  origin : Str
  url : Str
  dtype : Str
  stype : Str
  tags : Str
  at_time : Nat
deriving DecidableEq

/-- The calls' clocks are nondecreasing and start at or after `t`. -/
def timesMono : Nat → List UpsertCall → Bool
  | _, [] => true
  | t, c :: rest => decide (t ≤ c.at_time) && timesMono c.at_time rest

/-- A sequence of upserts, applied in order. -/
def run_upserts (store : List UrlRow) : List UpsertCall → List UrlRow
  | [] => store
  | c :: rest => run_upserts (save_url store c.origin c.url c.dtype c.stype c.tags c.at_time) rest

/-- An exclusion suffix without `LIKE` wildcards (checked after the case
folding `ILIKE` applies). -/
def noWildcards (ext : Str) : Bool :=
  (lowerStr ext).all (fun c => !(c == '%' || c == '_'))

/-! ## Fixtures: the concrete inputs of counterexamples and witnesses -/

/-- The page function of the C1 counterexample: one page visit whose merged
channel set contains `"https://a.test/p"` from both the DOM-anchor and the
heuristic channel, enumerated with the heuristic pair first — a possible
iteration order of the Python set. -/
def pagesBoth : String → Option (List (String × String)) :=
  fun u =>
    if u = "A" then some [("https://a.test/p", "heuristic"), ("https://a.test/p", "dom")]
    else some []

/-- The page function of the C2 counterexample: the root page links to one
new URL. -/
def pagesDeep : String → Option (List (String × String)) :=
  fun u => if u = "A" then some [("B", "dom")] else some []

/-- The environment of the C3 witness: every collaborator succeeds except
the audit call, which raises. -/
def envAuditRaises : ExecEnv :=
  ⟨Except.ok (), Except.ok [("dom", "https://a.test/p")], Except.ok (),
    Except.ok ["https://a.test/p"], Except.error "audit raised"⟩

/-- The single-row store of the C10 counterexample: one URL of origin `"o"`
whose **path** is `/a` (no suffix match) but whose query string ends in
`.js`. -/
def storeQueryJs : List UrlRow :=
  [⟨"o".toList, "http://h/a?b=.js".toList, "dom".toList, "s".toList, "t".toList, 0, 0⟩]

/-! ## Lemmas about the crawler's result map -/

lemma lookup_cons_pair (k u : String) (v : DiscoveredURL) (m : UrlMap) :
    ((k, v) :: m).lookup u = if u == k then some v else m.lookup u := by
  simp only [List.lookup]
  cases h : u == k <;> simp [h]

lemma lookup_append_pair (m₁ m₂ : UrlMap) (u : String) :
    (m₁ ++ m₂).lookup u = ((m₁.lookup u).or (m₂.lookup u)) := by
  induction m₁ with
  | nil => simp [List.lookup]
  | cons a m ih =>
    obtain ⟨k, v⟩ := a
    rw [List.cons_append, lookup_cons_pair, lookup_cons_pair]
    cases h : u == k <;> simp [ih]

lemma lookup_eq_none_iff_keys (m : UrlMap) (u : String) :
    m.lookup u = none ↔ u ∉ m.map Prod.fst := by
  induction m with
  | nil => simp [List.lookup]
  | cons a m ih =>
    obtain ⟨k, v⟩ := a
    rw [lookup_cons_pair]
    by_cases hk : u = k
    · subst hk; simp
    · have : (u == k) = false := by simpa using hk
      simp [this, ih, hk]

lemma add_lookup_same (m : UrlMap) (u : String) (d : Nat) (f : Option String)
    (t : String) (h : m.lookup u = none) :
    (_add_discovered_url m u d f t).lookup u = some ⟨u, d, f, t⟩ := by
  unfold _add_discovered_url
  rw [h]
  simp only [Option.isSome_none, Bool.false_eq_true, if_false]
  rw [lookup_append_pair, h, lookup_cons_pair]
  simp

lemma add_lookup_ne (m : UrlMap) (k u : String) (d : Nat) (f : Option String)
    (t : String) (h : u ≠ k) :
    (_add_discovered_url m k d f t).lookup u = m.lookup u := by
  unfold _add_discovered_url
  split
  · rfl
  · rw [lookup_append_pair, lookup_cons_pair]
    have : (u == k) = false := by simpa using h
    simp [this]

lemma add_keys_nodup (m : UrlMap) (k : String) (d : Nat) (f : Option String)
    (t : String) (h : (m.map Prod.fst).Nodup) :
    ((_add_discovered_url m k d f t).map Prod.fst).Nodup := by
  unfold _add_discovered_url
  split
  · exact h
  · rename_i hs
    have hnone : m.lookup k = none := by
      cases hmk : m.lookup k
      · rfl
      · exact absurd (by rw [hmk]; rfl) hs
    have hk : k ∉ m.map Prod.fst := (lookup_eq_none_iff_keys m k).mp hnone
    simp [List.nodup_append, h, hk]

lemma mem_add (x : String × DiscoveredURL) (m : UrlMap) (k : String) (d : Nat)
    (f : Option String) (t : String) (hx : x ∈ _add_discovered_url m k d f t) :
    x ∈ m ∨ x = (k, ⟨k, d, f, t⟩) := by
  unfold _add_discovered_url at hx
  split at hx
  · exact Or.inl hx
  · rcases List.mem_append.mp hx with h | h
    · exact Or.inl h
    · simp at h; exact Or.inr h

lemma queueUrls_append (q₁ q₂ : List QEntry) :
    queueUrls (q₁ ++ q₂) = queueUrls q₁ ++ queueUrls q₂ := by
  simp [queueUrls]

lemma processNew_lookup_stable (url : String) (depth : Nat) (visited : List String) :
    ∀ (news : List (String × String)) (queue : List QEntry) (m : UrlMap) (u : String),
      u ∈ queueUrls queue →
      (processNew url depth visited news queue m).2.lookup u = m.lookup u := by
  intro news
  induction news with
  | nil => intro queue m u _; rfl
  | cons pr rest ih =>
    intro queue m u hu
    obtain ⟨nu, dt⟩ := pr
    rw [processNew]
    split
    · rename_i hcond
      have hne : u ≠ nu := fun he => hcond.2 (he ▸ hu)
      rw [ih _ _ u (by rw [queueUrls_append]; exact List.mem_append_left _ hu)]
      exact add_lookup_ne m nu u _ _ _ hne
    · exact ih _ _ u hu

lemma processNew_keys_nodup (url : String) (depth : Nat) (visited : List String) :
    ∀ (news : List (String × String)) (queue : List QEntry) (m : UrlMap),
      (m.map Prod.fst).Nodup →
      ((processNew url depth visited news queue m).2.map Prod.fst).Nodup := by
  intro news
  induction news with
  | nil => intro queue m h; exact h
  | cons pr rest ih =>
    intro queue m h
    obtain ⟨nu, dt⟩ := pr
    rw [processNew]
    split
    · exact ih _ _ (add_keys_nodup m nu _ _ _ h)
    · exact ih _ _ h

lemma processNew_first_occurrence (url : String) (depth : Nat) (visited : List String) :
    ∀ (news : List (String × String)) (queue : List QEntry) (m : UrlMap) (u : String),
      u ∉ visited → u ∉ queueUrls queue → m.lookup u = none →
      (processNew url depth visited news queue m).2.lookup u
        = (news.find? (fun pr => pr.1 == u)).map
            (fun pr => (⟨u, depth + 1, some url, pr.2⟩ : DiscoveredURL)) := by
  intro news
  induction news with
  | nil => intro queue m u _ _ hm; simpa [processNew] using hm
  | cons pr rest ih =>
    intro queue m u hv hq hm
    obtain ⟨nu, dt⟩ := pr
    by_cases hnu : nu = u
    · subst hnu
      rw [processNew, if_pos ⟨hv, hq⟩]
      rw [processNew_lookup_stable url depth visited rest _ _ nu
        (by rw [queueUrls_append]; exact List.mem_append_right _ (by simp [queueUrls]))]
      rw [add_lookup_same m nu _ _ _ hm]
      simp [List.find?]
    · have hfind : ((nu, dt) :: rest).find? (fun pr => pr.1 == u)
          = rest.find? (fun pr => pr.1 == u) := by
        have : (nu == u) = false := by simpa using hnu
        simp [List.find?, this]
      rw [processNew]
      split
      · rw [ih _ _ u hv
          (by
            rw [queueUrls_append]
            intro hmem
            rcases List.mem_append.mp hmem with h | h
            · exact hq h
            · simp [queueUrls] at h; exact hnu h.symm)
          (by rw [add_lookup_ne m nu u _ _ _ (Ne.symm hnu)]; exact hm)]
        rw [hfind]
      · rw [ih _ _ u hv hq hm, hfind]

/-! ## Lemmas about the traversal loop -/

lemma popNext_spec (maxDepth : Nat) (visited : List String) :
    ∀ (queue : List QEntry) (e : QEntry) (rest : List QEntry),
      popNext maxDepth visited queue = some (e, rest) →
      e.1 ∉ visited ∧ e.2.1 ≤ maxDepth ∧ ∀ x ∈ rest, x ∈ queue := by
  intro queue
  induction queue with
  | nil => intro e rest h; simp [popNext] at h
  | cons a q ih =>
    intro e rest h
    rw [popNext] at h
    split at h
    · obtain ⟨h1, h2, h3⟩ := ih e rest h
      exact ⟨h1, h2, fun x hx => List.mem_cons_of_mem _ (h3 x hx)⟩
    · rename_i hcond
      push_neg at hcond
      have hpair : a = e ∧ q = rest := by
        have := Option.some.injEq .. ▸ h
        exact ⟨congrArg Prod.fst (by injection h), congrArg Prod.snd (by injection h)⟩
      obtain ⟨rfl, rfl⟩ := hpair
      exact ⟨hcond.1, by omega, fun x hx => List.mem_cons_of_mem _ hx⟩


lemma processNew_bounds (url : String) (visited : List String) (maxDepth depth : Nat)
    (hd : depth ≤ maxDepth) :
    ∀ (news : List (String × String)) (queue : List QEntry) (m : UrlMap),
      (∀ e ∈ queue, e.2.1 ≤ maxDepth + 1) →
      (∀ e ∈ m, e.2.depth ≤ maxDepth + 1) →
      (∀ e ∈ (processNew url depth visited news queue m).1, e.2.1 ≤ maxDepth + 1) ∧
      (∀ e ∈ (processNew url depth visited news queue m).2, e.2.depth ≤ maxDepth + 1) := by
  intro news
  induction news with
  | nil => intro queue m hq hm; exact ⟨hq, hm⟩
  | cons pr rest ih =>
    intro queue m hq hm
    obtain ⟨nu, dt⟩ := pr
    rw [processNew]
    split
    · refine ih _ _ ?_ ?_
      · intro e he
        rcases List.mem_append.mp he with h | h
        · exact hq e h
        · simp at h; subst h; simpa using hd
      · intro e he
        rcases mem_add e m nu _ _ _ he with h | h
        · exact hm e h
        · subst h; simpa using hd
    · exact ih _ _ hq hm

lemma crawlLoop_inv (pages : String → Option (List (String × String))) (maxDepth : Nat) :
    ∀ (budget : Nat) (queue : List QEntry) (visited : List String) (m : UrlMap),
      (∀ e ∈ queue, e.2.1 ≤ maxDepth + 1) →
      (∀ e ∈ m, e.2.depth ≤ maxDepth + 1) →
      visited.Nodup →
      (∀ e ∈ (crawlLoop pages maxDepth budget queue visited m).1, e.2.depth ≤ maxDepth + 1) ∧
      (crawlLoop pages maxDepth budget queue visited m).2.Nodup ∧
      (crawlLoop pages maxDepth budget queue visited m).2.length ≤ visited.length + budget := by
  intro budget
  induction budget with
  | zero =>
    intro queue visited m _ hm hv
    exact ⟨hm, hv, by simp [crawlLoop]⟩
  | succ b ih =>
    intro queue visited m hq hm hv
    rw [crawlLoop]
    rcases hpop : popNext maxDepth visited queue with _ | ⟨⟨url, depth, dfrom⟩, rest⟩
    · simp only
      exact ⟨hm, hv, by omega⟩
    · simp only
      obtain ⟨hnv, hdep, hsub⟩ := popNext_spec maxDepth visited queue _ _ hpop
      have hdep' : depth ≤ maxDepth := by simpa using hdep
      have hnv' : url ∉ visited := by simpa using hnv
      have hrest : ∀ e ∈ rest, e.2.1 ≤ maxDepth + 1 := fun e he => hq e (hsub e he)
      have hm1 : ∀ e ∈ _add_discovered_url m url depth dfrom "dom",
          e.2.depth ≤ maxDepth + 1 := by
        intro e he
        rcases mem_add e m url depth dfrom "dom" he with h | h
        · exact hm e h
        · subst h; simp; omega
      have hv' : (url :: visited).Nodup := List.nodup_cons.mpr ⟨hnv', hv⟩
      rcases hpg : pages url with _ | news
      · simp only
        obtain ⟨a, b', c⟩ := ih rest (url :: visited) _ hrest hm1 hv'
        exact ⟨a, b', by simp at c; omega⟩
      · simp only
        obtain ⟨hqb, hmb⟩ := processNew_bounds url (url :: visited) maxDepth depth hdep'
          news rest _ hrest hm1
        obtain ⟨a, b', c⟩ := ih _ (url :: visited) _ hqb hmb hv'
        exact ⟨a, b', by simp at c; omega⟩

/-! ## Claim C1 -/

/-- C1, counterexample: the two enumerations are the same set of
`(url, discovery_type)` pairs (a permutation), yet with the heuristic pair
first the traversal records the URL with `discovery_type = "heuristic"`,
not `"dom"` — the recorded tag depends on the enumeration order and is not
the priority maximum. -/
theorem c1_priority_cex :
    ([("https://a.test/p", "heuristic"), ("https://a.test/p", "dom")]
        : List (String × String)).Perm
      [("https://a.test/p", "dom"), ("https://a.test/p", "heuristic")] ∧
    (crawl pagesBoth "A" 1 10).1.lookup "https://a.test/p"
      = some ⟨"https://a.test/p", 1, some "A", "heuristic"⟩ ∧
    ("heuristic" : String) ≠ "dom" := by
  refine ⟨by decide, by decide, by decide⟩

/-- C1, amended: within one page visit the recording loop of `crawl` stores
a URL produced by several channels exactly once (the key set of the result
map stays duplicate-free), tagged with the `discovery_type` of the **first**
pair for that URL in the order the merged set is enumerated — first writer
wins, not channel priority. -/
theorem c1_first_writer (url : String) (depth : Nat) (visited : List String)
    (news : List (String × String)) (queue : List QEntry) (m : UrlMap) (u : String)
    (hv : u ∉ visited) (hq : u ∉ queueUrls queue) (hm : m.lookup u = none) :
    (processNew url depth visited news queue m).2.lookup u
      = (news.find? (fun pr => pr.1 == u)).map
          (fun pr => (⟨u, depth + 1, some url, pr.2⟩ : DiscoveredURL)) ∧
    ((m.map Prod.fst).Nodup →
      ((processNew url depth visited news queue m).2.map Prod.fst).Nodup) :=
  ⟨processNew_first_occurrence url depth visited news queue m u hv hq hm,
    fun h => processNew_keys_nodup url depth visited news queue m h⟩

/-- C1 witness: the amended statement at concrete inputs. -/
theorem c1_first_writer_witness :
    (("u" : String) ∉ ([] : List String)) ∧
    (processNew "A" 0 [] [("u", "heuristic"), ("u", "dom")] [] []).2.lookup "u"
      = some ⟨"u", 1, some "A", "heuristic"⟩ := by
  refine ⟨by decide, ?_⟩
  rw [(c1_first_writer "A" 0 [] [("u", "heuristic"), ("u", "dom")] [] [] "u"
    (by decide) (by decide) (by decide)).1]
  decide

/-! ## Claim C2 -/

/-- C2, counterexample: with `max_depth = 0` the crawl of `"A"` records the
frontier entry `"B"` at depth `1 > max_depth` in the returned result map
(`_add_discovered_url` runs at enqueue time, before the depth guard ever
sees the entry), so the claimed invariant `depth ≤ max_depth` fails. -/
theorem c2_depth_cex :
    (crawl pagesDeep "A" 0 10).1.lookup "B" = some ⟨"B", 1, some "A", "dom"⟩ ∧
    ¬ (∀ e ∈ (crawl pagesDeep "A" 0 10).1, e.2.depth ≤ 0) := by
  refine ⟨by decide, by decide⟩

/-- C2, amended: every entry of the result map has `depth ≤ max_depth + 1`
(entries at `max_depth + 1` are enqueued-but-never-visited frontier
records), and the visited set stays duplicate-free with at most `max_pages`
elements. -/
theorem c2_bounds (pages : String → Option (List (String × String)))
    (start : String) (maxDepth maxPages : Nat) :
    (∀ e ∈ (crawl pages start maxDepth maxPages).1, e.2.depth ≤ maxDepth + 1) ∧
    (crawl pages start maxDepth maxPages).2.length ≤ maxPages ∧
    (crawl pages start maxDepth maxPages).2.Nodup := by
  obtain ⟨a, b, c⟩ := crawlLoop_inv pages maxDepth maxPages [(start, 0, none)] [] []
    (by intro e he; simp at he; subst he; simp)
    (by intro e he; simp at he)
    (by simp)
  exact ⟨a, by simpa using c, b⟩

/-! ## Claims C3, C4, C5 -/

/-- C3: any failing execution — any collaborator step raising — leaves
`success_counts` and `fail_counts` untouched and still sets
`next_execution_time` to the failure time plus `execution_interval`
(the `except` branch of `execute_task`). -/
theorem c3_failure_reschedules (argsGiven : Nat) (env : ExecEnv)
    (now interval : Nat) (row : TaskRow)
    (h : (execute_task argsGiven env now interval row).failed = true) :
    (execute_task argsGiven env now interval row).row.success_counts = row.success_counts ∧
    (execute_task argsGiven env now interval row).row.fail_counts = row.fail_counts ∧
    (execute_task argsGiven env now interval row).row.next_execution_time
      = some (now + interval) := by
  obtain ⟨t, c, s, q, a⟩ := env
  cases t <;> cases c <;> cases s <;> cases q <;> cases a <;>
    simp_all [execute_task, pyCallCheck] <;>
    split_ifs <;> simp_all

/-- C3 witness: a concrete execution (constructor called correctly with 3
arguments, audit call raising at time 100 with interval 60) keeps the
counters 5 and 7 and sets the next execution time to 160. -/
theorem c3_failure_reschedules_witness :
    (execute_task 3 envAuditRaises 100 60 ⟨5, 7, none, none⟩).failed = true ∧
    ((execute_task 3 envAuditRaises 100 60 ⟨5, 7, none, none⟩).row.success_counts = 5 ∧
     (execute_task 3 envAuditRaises 100 60 ⟨5, 7, none, none⟩).row.fail_counts = 7 ∧
     (execute_task 3 envAuditRaises 100 60 ⟨5, 7, none, none⟩).row.next_execution_time
       = some 160) :=
  ⟨by decide, c3_failure_reschedules 3 envAuditRaises 100 60 ⟨5, 7, none, none⟩ (by decide)⟩

/-- C4, counterexample: after `create_discovery_task` launches an execution
of task 1 in the background (no registry check or insert) and the poll loop
then launches the same task — its id is absent from the registry — the
reachable state has **two** executions of task 1 in flight, so the claimed
single-flight property fails. -/
theorem c4_single_flight_cex :
    runTrace initSched [SchedAction.createLaunch 1, SchedAction.pollLaunch 1]
      = some ⟨[1], [1, 1]⟩ ∧
    ¬ (∀ s, runTrace initSched [SchedAction.createLaunch 1, SchedAction.pollLaunch 1]
        = some s → s.inflight.count 1 ≤ 1) := by
  refine ⟨by decide, fun h => ?_⟩
  have := h ⟨[1], [1, 1]⟩ (by decide)
  simp at this

/-- C4, amended: restricted to launches by the poll loop (whose
check-then-insert is atomic) and execution cleanup, every reachable state
has at most one in-flight execution per task id; the background launch of
`create_discovery_task` is the path that breaks the guarantee. -/
theorem c4_poll_single_flight (trace : List SchedAction) (s : SchedState)
    (hp : ∀ a ∈ trace, pollOnly a = true)
    (hr : runTrace initSched trace = some s) :
    ∀ t : Nat, s.inflight.count t ≤ 1 := by
  suffices h : ∀ (tr : List SchedAction) (s0 s1 : SchedState),
      s0.inflight.Nodup → (∀ t ∈ s0.inflight, t ∈ s0.registry) →
      (∀ a ∈ tr, pollOnly a = true) → runTrace s0 tr = some s1 →
      s1.inflight.Nodup by
    intro t
    exact List.nodup_iff_count_le_one.mp
      (h trace initSched s (by simp [initSched]) (by simp [initSched]) hp hr) t
  intro tr
  induction tr with
  | nil =>
    intro s0 s1 hn _ _ hrun
    simp [runTrace] at hrun
    exact hrun ▸ hn
  | cons a rest ih =>
    intro s0 s1 hn hsub hp hrun
    have hrest : ∀ b ∈ rest, pollOnly b = true :=
      fun b hb => hp b (List.mem_cons_of_mem _ hb)
    rw [runTrace] at hrun
    cases a with
    | pollLaunch t =>
      rw [schedStep] at hrun
      by_cases hreg : t ∈ s0.registry
      · rw [if_pos hreg] at hrun; simp at hrun
      · rw [if_neg hreg] at hrun
        refine ih ⟨t :: s0.registry, t :: s0.inflight⟩ s1 ?_ ?_ hrest hrun
        · exact List.nodup_cons.mpr ⟨fun hmem => hreg (hsub _ hmem), hn⟩
        · intro u hu
          rcases List.mem_cons.mp hu with rfl | hu
          · exact List.mem_cons_self _ _
          · exact List.mem_cons_of_mem _ (hsub _ hu)
    | createLaunch t =>
      have hpo : pollOnly (SchedAction.createLaunch t) = true := hp _ (List.mem_cons_self _ _)
      simp [pollOnly] at hpo
    | finish t =>
      rw [schedStep] at hrun
      by_cases hmem : t ∈ s0.inflight
      · rw [if_pos hmem] at hrun
        refine ih ⟨s0.registry.erase t, s0.inflight.erase t⟩ s1 (hn.erase _) ?_ hrest hrun
        intro u hu
        have h1 := (List.Nodup.mem_erase_iff hn).mp hu
        exact (List.mem_erase_of_ne h1.1).mpr (hsub _ h1.2)
      · rw [if_neg hmem] at hrun; simp at hrun

/-- C4 witness: a poll-only trace — launch task 1, finish it, launch it
again — reaches a state with one in-flight execution of task 1. -/
theorem c4_poll_single_flight_witness :
    runTrace initSched
      [SchedAction.pollLaunch 1, SchedAction.finish 1, SchedAction.pollLaunch 1]
      = some ⟨[1], [1]⟩ ∧
    (SchedState.mk [1] [1]).inflight.count 1 ≤ 1 :=
  ⟨by decide,
    c4_poll_single_flight
      [SchedAction.pollLaunch 1, SchedAction.finish 1, SchedAction.pollLaunch 1]
      ⟨[1], [1]⟩ (by decide) (by decide) 1⟩

/-- C5: with the one-argument construction both call sites perform,
`URLDiscoveryCrawler.__init__` rejects the call (`TypeError`) before any
page is visited: every scheduled execution attempts no crawl, persists
nothing, never invokes the audit collaborator, leaves both counters
unchanged and advances only `next_execution_time` through the failure path
— and every `/crawl-urls-audit` request answers 500 having persisted
nothing and audited nothing. -/
theorem c5_constructor_arity (env : ExecEnv) (now interval : Nat) (row : TaskRow) :
    (execute_task crawlerArgsGiven env now interval row).crawlAttempted = false ∧
    (execute_task crawlerArgsGiven env now interval row).saveInvokedWith = none ∧
    (execute_task crawlerArgsGiven env now interval row).auditCalled = false ∧
    (execute_task crawlerArgsGiven env now interval row).row.success_counts
      = row.success_counts ∧
    (execute_task crawlerArgsGiven env now interval row).row.fail_counts
      = row.fail_counts ∧
    (execute_task crawlerArgsGiven env now interval row).row.next_execution_time
      = some (now + interval) ∧
    (execute_task crawlerArgsGiven env now interval row).failed = true ∧
    (crawl_urls_audit crawlerArgsGiven env).status = 500 ∧
    (crawl_urls_audit crawlerArgsGiven env).saveInvokedWith = none ∧
    (crawl_urls_audit crawlerArgsGiven env).auditCalled = false := by
  obtain ⟨t, c, s, q, a⟩ := env
  cases t <;> simp [execute_task, crawl_urls_audit, pyCallCheck, crawlerParams, crawlerArgsGiven]

/-! ## Claim C8 -/

/-- C8, counterexample: `"http://A.test/x"` and `"http://a.test/x"` differ
only in the letter case of the host — their schemes agree and their netlocs
agree after case folding — yet `is_same_origin` answers `false`: the netloc
comparison is case-sensitive. -/
theorem c8_case_cex :
    (urlsplitD ("http://A.test/x".toList) []).scheme
      = (urlsplitD ("http://a.test/x".toList) []).scheme ∧
    lowerStr (urlsplitD ("http://A.test/x".toList) []).netloc
      = lowerStr (urlsplitD ("http://a.test/x".toList) []).netloc ∧
    is_same_origin ("http://A.test/x".toList) ("http://a.test/x".toList) = false := by
  refine ⟨by decide, by decide, by decide⟩

/-- C8, amended: `is_same_origin a b` is true iff the parsed schemes and the
parsed netlocs (host:port) are equal **as exact strings** — the scheme
comparison is effectively case-insensitive because parsing lower-cases the
scheme, but the host comparison is case-sensitive. -/
theorem c8_exact_origin (url1 url2 : Str) :
    is_same_origin url1 url2 = true ↔
      (urlsplitD url1 []).scheme = (urlsplitD url2 []).scheme ∧
      (urlsplitD url1 []).netloc = (urlsplitD url2 []).netloc := by
  simp [is_same_origin]

/-- C8 witness: the amended characterisation at a concrete pair (upper-case
scheme, same host). -/
theorem c8_exact_origin_witness :
    is_same_origin ("HTTP://h.test/a".toList) ("http://h.test/b".toList) = true :=
  (c8_exact_origin ("HTTP://h.test/a".toList) ("http://h.test/b".toList)).mpr
    ⟨by decide, by decide⟩

/-! ## Claim C9: lemmas about save_url -/

lemma keyMatches_update (r : UrlRow) (o u : Str) (n : Nat) :
    keyMatches (if keyMatches r o u then { r with last_seen_at := n } else r) o u
      = keyMatches r o u := by
  split <;> simp_all [keyMatches]

lemma countKey_map_update (store : List UrlRow) (o u : Str) (n : Nat) :
    countKey (store.map
        (fun r => if keyMatches r o u then { r with last_seen_at := n } else r)) o u
      = countKey store o u := by
  induction store with
  | nil => rfl
  | cons r rest ih =>
    have hk := keyMatches_update r o u n
    simp only [countKey, List.map_cons, List.filter_cons] at ih ⊢
    rw [hk]
    cases h : keyMatches r o u
    · simpa [h] using ih
    · simpa [h] using ih

lemma countKey_pos_iff (store : List UrlRow) (o u : Str) :
    store.any (fun r => keyMatches r o u) = true ↔ 0 < countKey store o u := by
  rw [List.any_eq_true]
  constructor
  · rintro ⟨r, hr, hkey⟩
    have : r ∈ store.filter (fun r => keyMatches r o u) := List.mem_filter.mpr ⟨hr, hkey⟩
    exact List.length_pos.mpr (fun he => by rw [he] at this; exact absurd this (by simp))
  · intro hpos
    rcases List.exists_mem_of_length_pos hpos with ⟨r, hr⟩
    exact ⟨r, (List.mem_filter.mp hr).1, (List.mem_filter.mp hr).2⟩

lemma countKey_save (store : List UrlRow) (o u d s t : Str) (n : Nat)
    (h : countKey store o u ≤ 1) :
    countKey (save_url store o u d s t n) o u = 1 := by
  unfold save_url
  by_cases hany : store.any (fun r => keyMatches r o u) = true
  · rw [if_pos hany, countKey_map_update]
    have := (countKey_pos_iff store o u).mp hany
    omega
  · rw [if_neg hany, countKey_map_update]
    have h0 : countKey store o u = 0 := by
      rcases Nat.eq_zero_or_pos (countKey store o u) with h0 | hpos
      · exact h0
      · exact absurd ((countKey_pos_iff store o u).mpr hpos) hany
    have hnew : keyMatches ⟨o, u, d, s, t, n, n⟩ o u = true := by simp [keyMatches]
    simp only [countKey] at h0 ⊢
    rw [List.filter_append, List.length_append, h0]
    simp [hnew]

lemma length_save_of_present (store : List UrlRow) (o u d s t : Str) (n : Nat)
    (h : store.any (fun r => keyMatches r o u) = true) :
    (save_url store o u d s t n).length = store.length := by
  rw [save_url, if_pos h, List.length_map]

lemma lastSeen_map_update (l : List UrlRow) (o u : Str) (n : Nat)
    (h : ∃ r ∈ l, keyMatches r o u = true) :
    lastSeenOf (l.map
        (fun r => if keyMatches r o u then { r with last_seen_at := n } else r)) o u
      = some n := by
  induction l with
  | nil => simp at h
  | cons r rest ih =>
    simp only [List.map_cons]
    cases hk : keyMatches r o u
    · have hrest : ∃ r ∈ rest, keyMatches r o u = true := by
        rcases h with ⟨r0, hr0, hkey⟩
        rcases List.mem_cons.mp hr0 with rfl | hr0
        · exact absurd hkey (by simp [hk])
        · exact ⟨r0, hr0, hkey⟩
      rw [if_neg (by simp)]
      simpa [lastSeenOf, List.find?_cons, hk] using ih hrest
    · have hkey : keyMatches { r with last_seen_at := n } o u = true := by
        simpa [keyMatches] using hk
      rw [if_pos rfl]
      simp [lastSeenOf, List.find?_cons, hkey]

lemma lastSeen_save (store : List UrlRow) (o u d s t : Str) (n : Nat) :
    lastSeenOf (save_url store o u d s t n) o u = some n := by
  unfold save_url
  by_cases hany : store.any (fun r => keyMatches r o u) = true
  · rw [if_pos hany]
    rcases List.any_eq_true.mp hany with ⟨r, hr, hkey⟩
    exact lastSeen_map_update store o u n ⟨r, hr, hkey⟩
  · rw [if_neg hany]
    refine lastSeen_map_update _ o u n ⟨⟨o, u, d, s, t, n, n⟩, ?_, by simp [keyMatches]⟩
    simp

lemma save_times_ok (store : List UrlRow) (o u d s t : Str) (tn now : Nat)
    (hle : tn ≤ now)
    (h : ∀ r ∈ store, r.first_seen_at ≤ r.last_seen_at ∧ r.last_seen_at ≤ tn) :
    ∀ r ∈ save_url store o u d s t now,
      r.first_seen_at ≤ r.last_seen_at ∧ r.last_seen_at ≤ now := by
  intro r hr
  unfold save_url at hr
  set store1 := if store.any (fun r => keyMatches r o u) then store
    else store ++ [⟨o, u, d, s, t, now, now⟩] with hstore1
  rcases List.mem_map.mp hr with ⟨r0, hr0, rfl⟩
  have hbase : r0.first_seen_at ≤ r0.last_seen_at ∧ r0.last_seen_at ≤ now := by
    have : r0 ∈ store ∨ r0 = ⟨o, u, d, s, t, now, now⟩ := by
      rw [hstore1] at hr0
      split at hr0
      · exact Or.inl hr0
      · rcases List.mem_append.mp hr0 with h1 | h1
        · exact Or.inl h1
        · simp at h1; exact Or.inr h1
    rcases this with h1 | rfl
    · exact ⟨(h r0 h1).1, le_trans (h r0 h1).2 hle⟩
    · simp
  split
  · exact ⟨le_trans hbase.1 hbase.2, le_refl now⟩
  · exact hbase

lemma run_upserts_ok (calls : List UpsertCall) :
    ∀ (t0 : Nat) (store : List UrlRow),
      (∀ r ∈ store, r.first_seen_at ≤ r.last_seen_at ∧ r.last_seen_at ≤ t0) →
      timesMono t0 calls = true →
      ∀ r ∈ run_upserts store calls, r.first_seen_at ≤ r.last_seen_at := by
  induction calls with
  | nil => intro t0 store h _ r hr; exact (h r hr).1
  | cons c rest ih =>
    intro t0 store h hm r hr
    simp only [timesMono, Bool.and_eq_true, decide_eq_true_eq] at hm
    exact ih c.at_time _ (save_times_ok store _ _ _ _ _ t0 c.at_time hm.1 h) hm.2 r hr

/-- C9: upserting the same `(origin, url)` twice leaves exactly one row for
the key and does not grow the store on the second call; `last_seen_at` is
the second call's clock, at least the first call's; and along any
chronologically ordered sequence of upserts every row keeps
`first_seen_at ≤ last_seen_at`. -/
theorem c9_upsert_idempotent (store : List UrlRow) (o u d s t : Str) (now1 now2 : Nat)
    (h1 : countKey store o u ≤ 1) (h2 : now1 ≤ now2) :
    countKey (save_url (save_url store o u d s t now1) o u d s t now2) o u = 1 ∧
    (save_url (save_url store o u d s t now1) o u d s t now2).length
      = (save_url store o u d s t now1).length ∧
    lastSeenOf (save_url store o u d s t now1) o u = some now1 ∧
    lastSeenOf (save_url (save_url store o u d s t now1) o u d s t now2) o u
      = some now2 ∧
    now1 ≤ now2 ∧
    (∀ (calls : List UpsertCall) (t0 : Nat) (store0 : List UrlRow),
      (∀ r ∈ store0, r.first_seen_at ≤ r.last_seen_at ∧ r.last_seen_at ≤ t0) →
      timesMono t0 calls = true →
      ∀ r ∈ run_upserts store0 calls, r.first_seen_at ≤ r.last_seen_at) := by
  have hc1 : countKey (save_url store o u d s t now1) o u = 1 :=
    countKey_save store o u d s t now1 h1
  refine ⟨countKey_save _ o u d s t now2 (by omega), ?_, lastSeen_save store o u d s t now1,
    lastSeen_save _ o u d s t now2, h2,
    fun calls t0 store0 h hm => run_upserts_ok calls t0 store0 h hm⟩
  exact length_save_of_present _ o u d s t now2 ((countKey_pos_iff _ o u).mpr (by omega))

/-- C9 witness: two concrete upserts of the same key at clocks 10 and 20
leave exactly one row for the key. -/
theorem c9_upsert_idempotent_witness :
    countKey (save_url (save_url [] ("o".toList) ("u".toList) ("d".toList) ("s".toList)
        ("t".toList) 10) ("o".toList) ("u".toList) ("d".toList) ("s".toList)
        ("t".toList) 20) ("o".toList) ("u".toList) = 1 :=
  (c9_upsert_idempotent [] ("o".toList) ("u".toList) ("d".toList) ("s".toList)
    ("t".toList) 10 20 (by decide) (by decide)).1

/-! ## Claim C10 -/

/-- C10, counterexample: the stored URL `"http://h/a?b=.js"` has path `/a`,
which ends with no listed suffix, so the claim admits it as an audit
candidate — but the query's `ILIKE '%' || ext` pattern matches the **whole
URL**, whose final characters are `.js`, so the code excludes it. -/
theorem c10_path_cex :
    get_needed_discovery_urls storeQueryJs ("o".toList) [".js".toList] = [] ∧
    auditCandidatesClaim storeQueryJs ("o".toList) [".js".toList]
      = ["http://h/a?b=.js".toList] := by
  refine ⟨by decide, by decide⟩

/-! ## Claim C10, amended: characterising the ILIKE patterns -/

lemma likeMatch_eq2 (c : Char) (ps s : Str) :
    likeMatch (c :: ps) s =
      if c = '%' then (s.tails.any fun t => likeMatch ps t)
      else if c = '_' then
        match s with
        | [] => false
        | _ :: s' => likeMatch ps s'
      else
        match s with
        | [] => false
        | d :: s' => c == d && likeMatch ps s' := rfl

lemma likeMatch_literal (p : Str) (hp : ∀ c ∈ p, c ≠ '%' ∧ c ≠ '_') :
    ∀ s, likeMatch p s = true ↔ s = p := by
  induction p with
  | nil => intro s; simp [likeMatch, List.isEmpty_iff]
  | cons c ps ih =>
    intro s
    have hc := hp c (List.mem_cons_self _ _)
    rw [likeMatch_eq2, if_neg hc.1, if_neg hc.2]
    cases s with
    | nil => simp
    | cons d s' =>
      simp only [Bool.and_eq_true, beq_iff_eq,
        ih (fun x hx => hp x (List.mem_cons_of_mem _ hx)) s', List.cons.injEq]
      constructor
      · rintro ⟨rfl, rfl⟩; exact ⟨rfl, rfl⟩
      · rintro ⟨rfl, rfl⟩; exact ⟨rfl, rfl⟩

lemma likeMatch_pct (ps s : Str) :
    likeMatch ('%' :: ps) s = true ↔ ∃ t, t <:+ s ∧ likeMatch ps t = true := by
  rw [likeMatch_eq2, if_pos rfl]
  simp [List.any_eq_true, List.mem_tails]

lemma likeMatch_pct_nil (s : Str) : likeMatch ('%' :: []) s = true :=
  (likeMatch_pct [] s).mpr ⟨[], List.nil_suffix, rfl⟩

lemma likeMatch_qm_pct (t : Str) :
    likeMatch ('?' :: '%' :: []) t = true ↔ ∃ t3, t = '?' :: t3 := by
  rw [likeMatch_eq2, if_neg (by decide), if_neg (by decide)]
  cases t with
  | nil => simp
  | cons e t3 =>
    simp only [likeMatch_pct_nil t3, Bool.and_true, beq_iff_eq, List.cons.injEq]
    constructor
    · rintro rfl; exact ⟨t3, rfl, rfl⟩
    · rintro ⟨t4, rfl, rfl⟩; rfl

lemma likeMatch_append_literal (p : Str) (hp : ∀ c ∈ p, c ≠ '%' ∧ c ≠ '_') (q : Str) :
    ∀ t, likeMatch (p ++ q) t = true ↔ ∃ t2, t = p ++ t2 ∧ likeMatch q t2 = true := by
  induction p with
  | nil => intro t; simp
  | cons c ps ih =>
    intro t
    have hc := hp c (List.mem_cons_self _ _)
    rw [List.cons_append, likeMatch_eq2, if_neg hc.1, if_neg hc.2]
    cases t with
    | nil => simp
    | cons d t' =>
      simp only [Bool.and_eq_true, beq_iff_eq,
        ih (fun x hx => hp x (List.mem_cons_of_mem _ hx)) t']
      constructor
      · rintro ⟨rfl, t2, rfl, h⟩; exact ⟨t2, rfl, h⟩
      · rintro ⟨t2, ht, h⟩
        rw [List.cons_append] at ht
        injection ht with h1 h2
        exact ⟨h1.symm, t2, h2, h⟩

lemma noWildcards_chars (ext : Str) (h : noWildcards ext = true) :
    ∀ c ∈ lowerStr ext, c ≠ '%' ∧ c ≠ '_' := by
  intro c hc
  have := List.all_eq_true.mp h c hc
  simp only [Bool.not_eq_true', Bool.or_eq_false_iff, beq_eq_false_iff_ne] at this
  exact this

lemma excludedBy_iff (url ext : Str) (h : noWildcards ext = true) :
    excludedBy url ext = true ↔
      lowerStr ext <:+ lowerStr url ∨
      (lowerStr ext ++ ('?' :: [])) <:+: lowerStr url := by
  have hp := noWildcards_chars ext h
  have hpct : Char.toLower '%' = '%' := by decide
  have hl1 : lowerStr ('%' :: ext) = '%' :: lowerStr ext := by
    simp [lowerStr, hpct]
  have hl2 : lowerStr ('%' :: (ext ++ ('?' :: '%' :: [])))
      = '%' :: (lowerStr ext ++ ('?' :: '%' :: [])) := by
    simp [lowerStr, hpct]
  unfold excludedBy pgILike
  rw [hl1, hl2, Bool.or_eq_true, likeMatch_pct, likeMatch_pct]
  constructor
  · rintro (⟨t, hts, hm⟩ | ⟨t, hts, hm⟩)
    · left
      rw [(likeMatch_literal (lowerStr ext) hp t).mp hm] at hts
      exact hts
    · right
      rcases (likeMatch_append_literal (lowerStr ext) hp _ t).mp hm with ⟨t2, rfl, hq⟩
      rcases (likeMatch_qm_pct t2).mp hq with ⟨t3, rfl⟩
      rcases hts with ⟨w, hw⟩
      exact ⟨w, t3, by rw [← hw]; simp⟩
  · rintro (hs | hi)
    · exact Or.inl ⟨lowerStr ext, hs, (likeMatch_literal (lowerStr ext) hp _).mpr rfl⟩
    · rcases hi with ⟨w, z, hwz⟩
      refine Or.inr ⟨lowerStr ext ++ '?' :: z, ⟨w, by rw [← hwz]; simp⟩, ?_⟩
      exact (likeMatch_append_literal (lowerStr ext) hp _ _).mpr
        ⟨'?' :: z, rfl, (likeMatch_qm_pct _).mpr ⟨z, rfl⟩⟩

lemma any_congr_mem {α : Type} (l : List α) (f g : α → Bool)
    (h : ∀ x ∈ l, f x = g x) : l.any f = l.any g := by
  induction l with
  | nil => rfl
  | cons a rest ih =>
    simp only [List.any_cons, h a (List.mem_cons_self _ _),
      ih (fun x hx => h x (List.mem_cons_of_mem _ hx))]

/-- C10, amended: for wildcard-free suffixes the audit-candidate query keeps
exactly this origin's rows whose **whole URL**, case-folded, neither ends
with a listed suffix nor contains a listed suffix immediately followed by
'?' — the match is over the full `discovery_url`, not over its path. -/
theorem c10_whole_url_match (store : List UrlRow) (origin : Str) (exts : List Str)
    (h : ∀ ext ∈ exts, noWildcards ext = true) :
    get_needed_discovery_urls store origin exts =
      (store.filter (fun r => r.origin == origin &&
        !(exts.any (fun ext =>
          decide (lowerStr ext <:+ lowerStr r.discovery_url) ||
          decide ((lowerStr ext ++ ('?' :: [])) <:+: lowerStr r.discovery_url))))).map
        (fun r => r.discovery_url) := by
  unfold get_needed_discovery_urls
  congr 1
  apply List.filter_congr
  intro r _
  congr 1
  congr 1
  apply any_congr_mem
  intro ext hmem
  rw [Bool.eq_iff_iff]
  simp only [Bool.or_eq_true, decide_eq_true_eq]
  exact excludedBy_iff r.discovery_url ext (h ext hmem)

/-- C10 witness: the amended characterisation at the counterexample store. -/
theorem c10_whole_url_match_witness :
    (∀ ext ∈ [".js".toList], noWildcards ext = true) ∧
    get_needed_discovery_urls storeQueryJs ("o".toList) [".js".toList] =
      (storeQueryJs.filter (fun r => r.origin == ("o".toList) &&
        !(([".js".toList]).any (fun ext =>
          decide (lowerStr ext <:+ lowerStr r.discovery_url) ||
          decide ((lowerStr ext ++ ('?' :: [])) <:+: lowerStr r.discovery_url))))).map
        (fun r => r.discovery_url) :=
  ⟨by decide, c10_whole_url_match storeQueryJs ("o".toList) [".js".toList] (by decide)⟩

/-! ## Claim C6: rejection paths of normalize_url -/

lemma pyStartsWith_nil_pat (s : Str) : pyStartsWith s [] = true := by
  cases s <;> rfl

lemma pyStartsWith_cons_cons (d : Char) (s' : Str) (c : Char) (ps : Str) :
    pyStartsWith (d :: s') (c :: ps) = (d == c && pyStartsWith s' ps) := rfl

lemma pyStartsWith_iff (s p : Str) : pyStartsWith s p = true ↔ ∃ t, s = p ++ t := by
  induction p generalizing s with
  | nil =>
    simp only [pyStartsWith_nil_pat, List.nil_append, true_iff]
    exact ⟨s, rfl⟩
  | cons c ps ih =>
    cases s with
    | nil =>
      simp only [pyStartsWith, List.cons_append]
      constructor
      · intro h; cases h
      · rintro ⟨t, h⟩; cases h
    | cons d s' =>
      rw [pyStartsWith_cons_cons]
      simp only [Bool.and_eq_true, beq_iff_eq, ih, List.cons_append, List.cons.injEq]
      constructor
      · rintro ⟨rfl, t, rfl⟩; exact ⟨t, rfl, rfl⟩
      · rintro ⟨t, rfl, rfl⟩; exact ⟨rfl, t, rfl⟩

lemma splitFirst_cons (sep c : Char) (rest : Str) :
    splitFirst sep (c :: rest) =
      if c = sep then some ([], rest)
      else (splitFirst sep rest).map (fun pr => (c :: pr.1, pr.2)) := rfl

lemma splitFirst_prefix_colon (S : Str) (h : ':' ∉ S) :
    ∀ rest, splitFirst ':' (S ++ ':' :: rest) = some (S, rest) := by
  induction S with
  | nil => intro rest; simp [splitFirst_cons]
  | cons c S' ih =>
    intro rest
    have hc : c ≠ ':' := fun he => h (he ▸ List.mem_cons_self _ _)
    rw [List.cons_append, splitFirst_cons, if_neg hc,
      ih (fun hm => h (List.mem_cons_of_mem _ hm)) rest]
    rfl

lemma splitSchemePart_found (S rest d : Str) (h1 : ':' ∉ S)
    (h2 : isSchemeName S = true) :
    splitSchemePart (S ++ ':' :: rest) d = (lowerStr S, rest) := by
  unfold splitSchemePart
  rw [splitFirst_prefix_colon S h1]
  simp [h2]

lemma urlsplitD_scheme (S rest d : Str) (h1 : ':' ∉ S) (h2 : isSchemeName S = true) :
    (urlsplitD (S ++ ':' :: rest) d).scheme = lowerStr S := by
  unfold urlsplitD
  rw [splitSchemePart_found S rest d h1 h2]

lemma scheme_about (href : Str) (hpre : pyStartsWith href ("about:".toList) = true)
    (d : Str) : (urlsplitD href d).scheme = "about".toList := by
  rcases (pyStartsWith_iff href _).mp hpre with ⟨t, rfl⟩
  have heq : ("about:".toList : Str) ++ t = "about".toList ++ ':' :: t := rfl
  rw [heq, urlsplitD_scheme ("about".toList) t d (by decide) (by decide)]
  decide

lemma urljoin_about (base href : Str)
    (hpre : pyStartsWith href ("about:".toList) = true) :
    urljoin base href = href := by
  have hne : href ≠ [] := by
    rcases (pyStartsWith_iff href _).mp hpre with ⟨t, rfl⟩
    intro hcontra
    exact absurd (List.append_eq_nil.mp hcontra).1 (by decide)
  by_cases hb : base = []
  · simp only [urljoin, if_pos hb]
  · simp only [urljoin, if_neg hb, if_neg hne]
    rw [if_pos ?_]
    rintro ⟨heq, hrel⟩
    rw [scheme_about href hpre _] at hrel
    exact absurd hrel (by decide)

/-- C6: `normalize_url` returns `None` whenever the href is empty or `"#"`,
is prefixed by a disallowed scheme (`javascript:`, `mailto:`, `tel:`,
`data:` — checked textually — or `about:`, rejected because the resolved
scheme `about` is not http/https), and whenever the resolved absolute URL
has a scheme other than http/https or an empty netloc.  The function is
total: every rejection is the value `none`, never an exception. -/
theorem c6_normalize_rejects (base href : Str)
    (h : href = [] ∨ href = ('#' :: [])
      ∨ disallowedSchemes.any (fun p => pyStartsWith href p) = true
      ∨ pyStartsWith href ("about:".toList) = true
      ∨ ((urlsplitD (urljoin base href) []).scheme ≠ "http".toList ∧
         (urlsplitD (urljoin base href) []).scheme ≠ "https".toList)
      ∨ (urlsplitD (urljoin base href) []).netloc = []) :
    normalize_url base href = none := by
  by_cases hd : disallowedSchemes.any (fun p => pyStartsWith href p) = true
  · simp only [normalize_url, if_pos hd]
  · by_cases he : href = [] ∨ href = ('#' :: [])
    · simp only [normalize_url, if_neg hd, if_pos he]
    · have hmain : ((urlsplitD (urljoin base href) []).scheme ≠ "http".toList ∧
          (urlsplitD (urljoin base href) []).scheme ≠ "https".toList) ∨
          (urlsplitD (urljoin base href) []).netloc = [] := by
        rcases h with h | h | h | h | h | h
        · exact absurd (Or.inl h) he
        · exact absurd (Or.inr h) he
        · exact absurd h hd
        · have hj : urljoin base href = href := urljoin_about base href h
          have hs : (urlsplitD href []).scheme = "about".toList := scheme_about href h []
          rw [hj]
          exact Or.inl ⟨by rw [hs]; decide, by rw [hs]; decide⟩
        · exact Or.inl h
        · exact Or.inr h
      simp only [normalize_url, if_neg hd, if_neg he]
      rcases hmain with ⟨h1, h2⟩ | h1
      · by_cases hg : (urlsplitD (urljoin base href) []).scheme = []
            ∨ (urlsplitD (urljoin base href) []).netloc = []
        · rw [if_pos hg]
        · rw [if_neg hg, if_pos ?_]
          rintro (h | h)
          · exact h1 h
          · exact h2 h
      · rw [if_pos (Or.inr h1)]

/-- C6 witness: an `about:`-prefixed href is rejected. -/
theorem c6_normalize_rejects_witness :
    pyStartsWith ("about:blank".toList) ("about:".toList) = true ∧
    normalize_url ("http://a.test".toList) ("about:blank".toList) = none :=
  ⟨by decide,
    c6_normalize_rejects ("http://a.test".toList) ("about:blank".toList)
      (Or.inr (Or.inr (Or.inr (Or.inl (by decide)))))⟩

/-! ## Claim C7: round-trip lemmas for canonical URLs -/

lemma splitFirst_eq_none_iff (sep : Char) (s : Str) :
    splitFirst sep s = none ↔ sep ∉ s := by
  induction s with
  | nil => simp [splitFirst]
  | cons c rest ih =>
    rw [splitFirst_cons]
    by_cases hc : c = sep
    · subst hc; simp
    · simp only [if_neg hc, Option.map_eq_none', ih, List.mem_cons]
      constructor
      · intro h hmem
        rcases hmem with hmem | hmem
        · exact hc hmem.symm
        · exact h hmem
      · intro h hm
        exact h (Or.inr hm)

lemma splitFirst_before_spec (sep : Char) :
    ∀ (s a b : Str), splitFirst sep s = some (a, b) →
      sep ∉ a ∧ ∀ c ∈ a, c ∈ s := by
  intro s
  induction s with
  | nil => intro a b h; simp [splitFirst] at h
  | cons c rest ih =>
    intro a b h
    rw [splitFirst_cons] at h
    by_cases hc : c = sep
    · rw [if_pos hc] at h
      injection h with h
      obtain ⟨rfl, rfl⟩ : a = [] ∧ b = rest :=
        ⟨(congrArg Prod.fst h).symm, (congrArg Prod.snd h).symm⟩
      exact ⟨by simp, by simp⟩
    · rw [if_neg hc] at h
      rcases hsf : splitFirst sep rest with _ | ⟨a', b'⟩
      · rw [hsf] at h; simp at h
      · rw [hsf] at h
        simp only [Option.map_some'] at h
        injection h with h
        obtain ⟨h1, h2⟩ := Prod.ext_iff.mp h
        simp only at h1 h2
        subst h1
        subst h2
        obtain ⟨h1, h2⟩ := ih a' b' hsf
        constructor
        · intro hmem
          rcases List.mem_cons.mp hmem with hmem | hmem
          · exact hc hmem.symm
          · exact h1 hmem
        · intro x hx
          rcases List.mem_cons.mp hx with rfl | hx
          · exact List.mem_cons_self _ _
          · exact List.mem_cons_of_mem _ (h2 x hx)

lemma splitTail_of_not_mem (sep : Char) (s : Str) (h : sep ∉ s) :
    splitTail sep s = (s, []) := by
  unfold splitTail
  rw [(splitFirst_eq_none_iff sep s).mpr h]

lemma splitTail_before_no_sep (sep : Char) (s : Str) :
    sep ∉ (splitTail sep s).1 := by
  unfold splitTail
  rcases hsf : splitFirst sep s with _ | ⟨a, b⟩
  · exact (splitFirst_eq_none_iff sep s).mp hsf
  · exact (splitFirst_before_spec sep s a b hsf).1

lemma splitTail_before_subset (sep : Char) (s : Str) :
    ∀ c ∈ (splitTail sep s).1, c ∈ s := by
  unfold splitTail
  rcases hsf : splitFirst sep s with _ | ⟨a, b⟩
  · exact fun c hc => hc
  · exact (splitFirst_before_spec sep s a b hsf).2

lemma splitNetloc_no_delim (s : Str) :
    ∀ c ∈ (splitNetloc s).1, netlocDelim c = false := by
  induction s with
  | nil => simp [splitNetloc]
  | cons c rest ih =>
    rw [splitNetloc]
    cases hd : netlocDelim c
    · rw [if_neg (by simp [hd])]
      intro x hx
      rcases List.mem_cons.mp hx with rfl | hx
      · exact hd
      · exact ih x hx
    · rw [if_pos (by simp [hd])]
      simp

lemma splitNetloc_append (n t : Str) (hn : ∀ c ∈ n, netlocDelim c = false)
    (ht : t = [] ∨ ∃ c t', t = c :: t' ∧ netlocDelim c = true) :
    splitNetloc (n ++ t) = (n, t) := by
  induction n with
  | nil =>
    rcases ht with rfl | ⟨c, t', rfl, hc⟩
    · rfl
    · rw [List.nil_append, splitNetloc, if_pos hc]
  | cons c n' ih =>
    have hc : netlocDelim c = false := hn c (List.mem_cons_self _ _)
    rw [List.cons_append, splitNetloc, if_neg (by simp [hc]),
      ih (fun x hx => hn x (List.mem_cons_of_mem _ hx))]

lemma urlsplitD_netloc_eq (url d : Str) :
    (urlsplitD url d).netloc = (splitNetPart (splitSchemePart url d).2).1 := rfl

lemma urlsplitD_netloc_no_delim (url d : Str) :
    ∀ c ∈ (urlsplitD url d).netloc, netlocDelim c = false := by
  rw [urlsplitD_netloc_eq]
  unfold splitNetPart
  split
  · exact splitNetloc_no_delim _
  · simp

lemma urlsplitD_path_no_qh (url d : Str) :
    '?' ∉ (urlsplitD url d).path ∧ '#' ∉ (urlsplitD url d).path := by
  constructor
  · exact splitTail_before_no_sep '?' _
  · intro hmem
    exact splitTail_before_no_sep '#' (splitNetPart (splitSchemePart url d).2).2
      (splitTail_before_subset '?' _ _ hmem)

lemma mem_addSlash (c : Char) (p : Str) (h : c ∈ addSlash p) : c = '/' ∨ c ∈ p := by
  cases p with
  | nil => simp [addSlash] at h
  | cons c' r =>
    rw [addSlash] at h
    split at h
    · exact Or.inr h
    · rcases List.mem_cons.mp h with rfl | h
      · exact Or.inl rfl
      · exact Or.inr h

lemma addSlash_head (p : Str) :
    addSlash p = [] ∨ ∃ t, addSlash p = '/' :: t := by
  cases p with
  | nil => exact Or.inl rfl
  | cons c r =>
    rw [addSlash]
    split
    · rename_i hc; subst hc; exact Or.inr ⟨r, rfl⟩
    · exact Or.inr ⟨c :: r, rfl⟩

lemma addSlash_idem (p : Str) : addSlash (addSlash p) = addSlash p := by
  rcases addSlash_head p with h | ⟨t, h⟩ <;> rw [h]
  · rfl
  · rw [addSlash, if_pos rfl]

lemma unsplit_shape (S n p : Str) (hSne : S ≠ []) (hn : n ≠ []) :
    urlunsplit ⟨S, n, p, [], []⟩ = S ++ ':' :: '/' :: '/' :: (n ++ addSlash p) := by
  simp only [urlunsplit]
  rw [if_pos (Or.inl hn), if_pos hSne, if_neg (by simp), if_neg (by simp)]

lemma unsplit_addSlash (S n p : Str) (hSne : S ≠ []) (hn : n ≠ []) :
    urlunsplit ⟨S, n, addSlash p, [], []⟩ = urlunsplit ⟨S, n, p, [], []⟩ := by
  rw [unsplit_shape S n (addSlash p) hSne hn, unsplit_shape S n p hSne hn, addSlash_idem]

lemma urlsplit_unsplit (S n p d : Str)
    (hS1 : ':' ∉ S) (hS2 : isSchemeName S = true) (hS3 : lowerStr S = S) (hSne : S ≠ [])
    (hn : n ≠ []) (hnd : ∀ c ∈ n, netlocDelim c = false)
    (hp1 : '?' ∉ p) (hp2 : '#' ∉ p) :
    urlsplitD (urlunsplit ⟨S, n, p, [], []⟩) d = ⟨S, n, addSlash p, [], []⟩ := by
  rw [unsplit_shape S n p hSne hn]
  have hnet : splitNetPart ('/' :: '/' :: (n ++ addSlash p)) = (n, addSlash p) := by
    unfold splitNetPart
    rw [if_pos (by simp [pyStartsWith_cons_cons, pyStartsWith_nil_pat])]
    have hdrop : (('/' :: '/' :: (n ++ addSlash p)).drop 2) = n ++ addSlash p := rfl
    rw [hdrop]
    refine splitNetloc_append n (addSlash p) hnd ?_
    rcases addSlash_head p with h | ⟨t, h⟩
    · exact Or.inl h
    · exact Or.inr ⟨'/', t, h, by simp [netlocDelim]⟩
  have hq : '?' ∉ addSlash p := by
    intro hmem
    rcases mem_addSlash _ _ hmem with h | h
    · exact absurd h (by decide)
    · exact hp1 h
  have hh : '#' ∉ addSlash p := by
    intro hmem
    rcases mem_addSlash _ _ hmem with h | h
    · exact absurd h (by decide)
    · exact hp2 h
  unfold urlsplitD
  rw [splitSchemePart_found S ('/' :: '/' :: (n ++ addSlash p)) d hS1 hS2, hS3]
  simp only
  rw [hnet]
  simp only
  rw [splitTail_of_not_mem '#' (addSlash p) hh]
  simp only
  rw [splitTail_of_not_mem '?' (addSlash p) hq]

lemma intercalate_cons_ne_nil (sep x : Str) (rest : List Str) (hx : x ≠ []) :
    List.intercalate sep (x :: rest) ≠ [] := by
  cases rest with
  | nil => simpa [List.intercalate, List.intersperse] using hx
  | cons y rest' =>
    simp [List.intercalate, List.intersperse, hx]

lemma buildQuery_ne_nil (l : List (Str × List Str)) (h : l ≠ []) :
    buildQuery l ≠ [] := by
  cases l with
  | nil => exact absurd rfl h
  | cons kv rest =>
    unfold buildQuery
    simp only [List.map_cons]
    exact intercalate_cons_ne_nil _ _ _ (by simp)

lemma unsplit_query_mem (s n p q : Str) (hq : q ≠ []) :
    '?' ∈ urlunsplit ⟨s, n, p, q, []⟩ := by
  simp only [urlunsplit]
  rw [if_neg (by simp), if_pos hq]
  simp

lemma normalize_some_inv (base href r : Str)
    (h : normalize_url base href = some r) (hq : '?' ∉ r) :
    ∃ S n p, (S = "http".toList ∨ S = "https".toList) ∧ n ≠ [] ∧
      (∀ c ∈ n, netlocDelim c = false) ∧ '?' ∉ p ∧ '#' ∉ p ∧
      r = urlunsplit ⟨S, n, p, [], []⟩ := by
  simp only [normalize_url] at h
  split at h
  · exact absurd h (by simp)
  split at h
  · exact absurd h (by simp)
  split at h
  · exact absurd h (by simp)
  split at h
  · exact absurd h (by simp)
  rename_i hg1 hg2 hg3 hg4
  refine ⟨(urlsplitD (urljoin base href) []).scheme,
    (urlsplitD (urljoin base href) []).netloc,
    (urlsplitD (urljoin base href) []).path,
    not_not.mp hg4, fun hfalse => hg3 (Or.inr hfalse),
    urlsplitD_netloc_no_delim _ _,
    (urlsplitD_path_no_qh _ _).1, (urlsplitD_path_no_qh _ _).2, ?_⟩
  split at h
  · split at h
    · rename_i hfil
      exfalso
      apply hq
      rw [← Option.some.inj h]
      exact unsplit_query_mem _ _ _ _ (buildQuery_ne_nil _ hfil)
    · exact (Option.some.inj h).symm
  · rename_i hqe
    have hqe' : (urlsplitD (urljoin base href) []).query = [] := not_not.mp (by simpa using hqe)
    rw [← Option.some.inj h, hqe']

lemma not_startsWith_head (x : Str) (c d : Char) (t : Str) (hne : (c == d) = false) :
    pyStartsWith (c :: x) (d :: t) = false := by
  rw [pyStartsWith_cons_cons, hne]
  rfl

lemma normalize_canonical (base S n p : Str)
    (hS1 : ':' ∉ S) (hS2 : isSchemeName S = true) (hS3 : lowerStr S = S) (hSne : S ≠ [])
    (hSh : S = "http".toList ∨ S = "https".toList)
    (hn : n ≠ []) (hnd : ∀ c ∈ n, netlocDelim c = false)
    (hp1 : '?' ∉ p) (hp2 : '#' ∉ p) :
    normalize_url base (urlunsplit ⟨S, n, p, [], []⟩)
      = some (urlunsplit ⟨S, n, p, [], []⟩) := by
  have hrel : S ∈ usesRelative := by rcases hSh with rfl | rfl <;> decide
  have hnetm : S ∈ usesNetloc := by rcases hSh with rfl | rfl <;> decide
  obtain ⟨S', hS'⟩ : ∃ S', S = 'h' :: S' := by
    rcases hSh with rfl | rfl
    · exact ⟨"ttp".toList, rfl⟩
    · exact ⟨"ttps".toList, rfl⟩
  have hshape : urlunsplit ⟨S, n, p, [], []⟩
      = S ++ ':' :: '/' :: '/' :: (n ++ addSlash p) := unsplit_shape S n p hSne hn
  have hcons : urlunsplit ⟨S, n, p, [], []⟩
      = 'h' :: (S' ++ ':' :: '/' :: '/' :: (n ++ addSlash p)) := by
    rw [hshape, hS', List.cons_append]
  have hRT : ∀ d, urlsplitD (urlunsplit ⟨S, n, p, [], []⟩) d = ⟨S, n, addSlash p, [], []⟩ :=
    fun d => urlsplit_unsplit S n p d hS1 hS2 hS3 hSne hn hnd hp1 hp2
  have hdis : disallowedSchemes.any
      (fun pf => pyStartsWith (urlunsplit ⟨S, n, p, [], []⟩) pf) = false := by
    rw [hcons]
    simp only [disallowedSchemes, List.map_cons, List.map_nil, List.any_cons, List.any_nil,
      Bool.or_eq_false_iff]
    refine ⟨?_, ?_, ?_, ?_, trivial⟩
    · exact not_startsWith_head _ 'h' 'j' _ (by decide)
    · exact not_startsWith_head _ 'h' 'm' _ (by decide)
    · exact not_startsWith_head _ 'h' 't' _ (by decide)
    · exact not_startsWith_head _ 'h' 'd' _ (by decide)
  have hr1 : urlunsplit ⟨S, n, p, [], []⟩ ≠ [] := by rw [hcons]; simp
  have hr2 : urlunsplit ⟨S, n, p, [], []⟩ ≠ ('#' :: []) := by
    rw [hcons]
    intro hcontra
    injection hcontra with h1 _
    exact absurd h1 (by decide)
  have hjoin : urljoin base (urlunsplit ⟨S, n, p, [], []⟩) = urlunsplit ⟨S, n, p, [], []⟩ := by
    by_cases hb : base = []
    · simp only [urljoin, if_pos hb]
    · simp only [urljoin, if_neg hb, if_neg hr1]
      rw [hRT (urlsplitD base []).scheme]
      by_cases hbs : S = (urlsplitD base []).scheme
      · rw [if_neg (not_not_intro ⟨hbs, hrel⟩), if_pos ⟨hnetm, hn⟩]
        exact unsplit_addSlash S n p hSne hn
      · rw [if_pos (fun hand => hbs hand.1)]
  simp only [normalize_url, hdis, Bool.false_eq_true, if_false]
  rw [if_neg (by rintro (hc | hc); exacts [hr1 hc, hr2 hc]), hjoin, hRT []]
  rw [if_neg (by rintro (hc | hc); exacts [hSne hc, hn hc])]
  rw [if_neg (not_not_intro hSh)]
  rw [if_neg (by simp)]
  rw [unsplit_addSlash S n p hSne hn]

/-- C7, counterexample: the href `"http://h/p?a=b%26c"` normalizes to
`"http://h/p?a=b&c"` — `parse_qs` percent-decodes the value `b%26c` and the
rebuild never re-encodes it.  Normalizing that result again re-splits the
query at the bare `&`, drops the dangling field `c`, and yields
`"http://h/p?a=b"`: `normalize` is not idempotent. -/
theorem c7_idempotent_cex :
    normalize_url ("http://h/".toList) ("http://h/p?a=b%26c".toList)
      = some ("http://h/p?a=b&c".toList) ∧
    normalize_url ("http://h/".toList) ("http://h/p?a=b&c".toList)
      = some ("http://h/p?a=b".toList) ∧
    ("http://h/p?a=b".toList : Str) ≠ ("http://h/p?a=b&c".toList) := by
  refine ⟨by decide, by decide, by decide⟩

/-- C7, amended: `normalize` is idempotent whenever the inner call is
non-null **and its canonical result carries no query string** (no '?'):
re-normalizing such a result returns it unchanged.  With a query string
the percent-decoding of `parse_qs`, never undone by the rebuild, can change
the URL again on the second pass. -/
theorem c7_idempotent_no_query (base href r : Str)
    (h : normalize_url base href = some r) (hq : '?' ∉ r) :
    normalize_url base r = some r := by
  obtain ⟨S, n, p, hSh, hn, hnd, hp1, hp2, rfl⟩ := normalize_some_inv base href r h hq
  have hS1 : ':' ∉ S := by rcases hSh with rfl | rfl <;> decide
  have hS2 : isSchemeName S = true := by rcases hSh with rfl | rfl <;> decide
  have hS3 : lowerStr S = S := by rcases hSh with rfl | rfl <;> decide
  have hSne : S ≠ [] := by rcases hSh with rfl | rfl <;> decide
  exact normalize_canonical base S n p hS1 hS2 hS3 hSne hSh hn hnd hp1 hp2

/-- C7 witness: re-normalizing the query-free canonical result of a
relative href returns it unchanged. -/
theorem c7_idempotent_no_query_witness :
    normalize_url ("http://h/".toList) ("/x".toList) = some ("http://h/x".toList) ∧
    normalize_url ("http://h/".toList) ("http://h/x".toList)
      = some ("http://h/x".toList) :=
  ⟨by decide,
    c7_idempotent_no_query ("http://h/".toList) ("/x".toList) ("http://h/x".toList)
      (by decide) (by decide)⟩

end UrlDisc
